import Mathlib

/-! Byte packing and bit extraction (`src/src/testing.c`)

A shallow embedding of the two utility functions `combine` and `bit_return`
and of the driver `main`, followed by the theorems that settle the claims
made about them.

Conventions of the embedding

* An `unsigned long int` of `w` bits is a natural number below `2 ^ w`; the C
  standard guarantees `32 ≤ w`, which the theorems take as a hypothesis.
* An `unsigned char` is a natural number below `256`.
* An `int` is 32 bits wide and is an integer in `[-2 ^ 31, 2 ^ 31)`; its bit
  pattern is the natural number `int_to_bits a` below `2 ^ 32` (two's
  complement).
* Two semantics are given for the signed operations.  The *machine* semantics
  (`int_shl`, `bit_return`) wraps around modulo `2 ^ 32`, which is what a
  two's-complement target computes.  The *checked* semantics
  (`int_shl_checked`, `bit_return_checked`) follows ISO C and yields `none`
  where the standard leaves the behaviour undefined.
-/

namespace Testing

/-! ## Machine integers -/

/-- Largest value of type `int`. -/
def INT_MAX : Int := 2 ^ 31 - 1

/-- Smallest value of type `int`. -/
def INT_MIN : Int := -(2 ^ 31)

/-- The 32-bit two's-complement bit pattern of an `int`. -/
def int_to_bits (a : Int) : Nat := (a % 2 ^ 32).toNat

/-- The `int` whose two's-complement bit pattern is the low 32 bits of `n`. -/
def bits_to_int (n : Nat) : Int :=
  if n % 2 ^ 32 < 2 ^ 31 then ((n % 2 ^ 32 : Nat) : Int)
  else ((n % 2 ^ 32 : Nat) : Int) - 2 ^ 32

/-- The C operator `a & b` on two `int` operands. -/
def int_and (a b : Int) : Int := bits_to_int (int_to_bits a &&& int_to_bits b)

/-- Machine semantics of `a << n` on `int`: the bit pattern of `a` is moved
left and truncated to 32 bits.  The shift count is taken modulo 32, as the
x86 shift instruction does; every use below has `0 ≤ n < 32`. -/
def int_shl (a n : Int) : Int := bits_to_int (int_to_bits a <<< (n % 32).toNat)

/-- Checked semantics of `a << n` on `int` (C11 6.5.7 p3 and p4): the result
is defined only when `0 ≤ n < 32`, `a` is nonnegative and `a * 2 ^ n` is
representable in `int`. -/
def int_shl_checked (a n : Int) : Option Int :=
  if 0 ≤ n ∧ n < 32 ∧ 0 ≤ a ∧ a * 2 ^ n.toNat ≤ INT_MAX then some (a * 2 ^ n.toNat)
  else none

/-- Conversion of a value to `unsigned long int` of `w` bits. -/
def ulong_cast (w x : Nat) : Nat := x % 2 ^ w

/-- The C operator `x << n` on `unsigned long int` of `w` bits: the result is
reduced modulo `2 ^ w`. -/
def ulong_shl (w x n : Nat) : Nat := (x <<< n) % 2 ^ w

/-- Checked semantics of `x << n` on `unsigned long int` of `w` bits
(C11 6.5.7 p3): the shift count has to be smaller than the width. -/
def ulong_shl_checked (w x n : Nat) : Option Nat :=
  if n < w then some ((x <<< n) % 2 ^ w) else none

/-- Conversion of an `int` to `unsigned char`. -/
def uchar_cast (x : Int) : Int := x % 256

/-! ## The two utility functions -/

/-- The function `combine` (lines 44-49), for an `unsigned long int` of `w`
bits:
  return ((((unsigned long int)b1 << 24) | ((unsigned long int)b2 << 16)) |
          ((unsigned long int)b3 << 8)) | (unsigned long int)b4; -/
def combine (w b1 b2 b3 b4 : Nat) : Nat :=
  ((ulong_shl w (ulong_cast w b1) 24 ||| ulong_shl w (ulong_cast w b2) 16) |||
      ulong_shl w (ulong_cast w b3) 8) |||
    ulong_cast w b4

/-- The function `combine` under the checked semantics: `none` as soon as one
of its shifts is out of range for the width `w`. -/
def combine_checked (w b1 b2 b3 b4 : Nat) : Option Nat := do
  let s1 ← ulong_shl_checked w (ulong_cast w b1) 24
  let s2 ← ulong_shl_checked w (ulong_cast w b2) 16
  let s3 ← ulong_shl_checked w (ulong_cast w b3) 8
  pure (((s1 ||| s2) ||| s3) ||| ulong_cast w b4)

/-- The function `bit_return` (lines 50-55) under the machine semantics:
  int buf = a & 1<<loc;
  if (buf == 0) return 0; else return 1; -/
def bit_return (a loc : Int) : Int :=
  let buf := int_and a (int_shl 1 loc)
  if buf = 0 then 0 else 1

/-- The function `bit_return` under the checked semantics: `none` when the
mask `1<<loc` is undefined in ISO C. -/
def bit_return_checked (a loc : Int) : Option Int := do
  let mask ← int_shl_checked 1 loc
  let buf := int_and a mask
  if buf = 0 then pure 0 else pure 1

/-! ## The floating-point view of the packed word -/

/-- Sign bit (bit 31) of a binary32 pattern. -/
def float_sign (bits : Nat) : Nat := (bits >>> 31) % 2

/-- Biased exponent (bits 30..23) of a binary32 pattern. -/
def float_exponent (bits : Nat) : Nat := (bits >>> 23) % 256

/-- Fraction field (bits 22..0) of a binary32 pattern. -/
def float_fraction (bits : Nat) : Nat := bits % 2 ^ 23

/-- The exact rational value of an IEEE-754 binary32 bit pattern, which is
what `*out_float` (lines 13-14) denotes; `none` for infinities and NaN. -/
def float_value (bits : Nat) : Option Rat :=
  let s : Rat := if float_sign bits = 1 then -1 else 1
  let e := float_exponent bits
  let f : Rat := float_fraction bits
  if e = 255 then none
  else if e = 0 then some (s * (f / 2 ^ 23) * 2 ^ (-126 : Int))
  else some (s * (1 + f / 2 ^ 23) * 2 ^ ((e : Int) - 127))

/-! ## The driver -/

/-- Decimal text written by `printf("%d", x)`. -/
def printf_d (x : Int) : String := toString x

/-- The four byte accumulators of `main`. -/
inductive Acc where
  | enc_b1
  | enc_b2
  | enc_b3
  | enc_b4
  deriving DecidableEq

/-- The variables of `main` that the four loops read and write, the text
written to standard output so far, and (as a ghost field) the arguments
`(i, j)` of every loop iteration executed so far. -/
structure MainState where
  i : Int
  j : Int
  enc_b1 : Int
  enc_b2 : Int
  enc_b3 : Int
  enc_b4 : Int
  stdout : String
  calls : List (Int × Int)
  deriving DecidableEq

/-- The statement `enc_bk += x` for an `unsigned char` accumulator: the sum is
formed in `int` and converted back to `unsigned char`. -/
def MainState.add_to (s : MainState) (k : Acc) (x : Int) : MainState :=
  match k with
  | Acc.enc_b1 => { s with enc_b1 := uchar_cast (s.enc_b1 + x) }
  | Acc.enc_b2 => { s with enc_b2 := uchar_cast (s.enc_b2 + x) }
  | Acc.enc_b3 => { s with enc_b3 := uchar_cast (s.enc_b3 + x) }
  | Acc.enc_b4 => { s with enc_b4 := uchar_cast (s.enc_b4 + x) }

/-- One iteration of a loop of `main` on the word `word`, with accumulator
`k`, followed by the loop's increment `i--, j--`:
  printf("%d", bit_return(*encode_in, i));
  enc_bk += bit_return(*encode_in, i) << j; -/
def loop_body (word : Int) (k : Acc) (s : MainState) : MainState :=
  let s1 := { s with stdout := s.stdout ++ printf_d (bit_return word s.i),
                     calls := s.calls ++ [(s.i, s.j)] }
  let s2 := s1.add_to k (int_shl (bit_return word s.i) s.j)
  { s2 with i := s2.i - 1, j := s2.j - 1 }

/-- The loop `for (...; i >= lo; i--, j--) body`, started in a state where
`i` and `j` are already set; `none` when the fuel runs out before the loop
condition fails. -/
def for_loop (word : Int) (k : Acc) (lo : Int) : Nat → MainState → Option MainState
  | 0, _ => none
  | fuel + 1, s =>
    if s.i ≥ lo then for_loop word k lo fuel (loop_body word k s) else some s

/-- The value of `out` in `main` (line 12). -/
def main_out (w : Nat) : Nat := combine w 191 224 0 0

/-- The 32 bits that `out_float` and `encode_in` point to (lines 13 and 16):
the first four bytes of `out`, which on a little-endian target are its low
32 bits. -/
def main_word_bits (w : Nat) : Nat := main_out w % 2 ^ 32

/-- The value of `*encode_in` in `main`. -/
def main_encode_in (w : Nat) : Int := bits_to_int (main_word_bits w)

/-- The initialisation `i = i0, j = j0` of a `for` statement. -/
def MainState.loop_init (s : MainState) (i0 j0 : Int) : MainState :=
  { s with i := i0, j := j0 }

/-- The statement `printf(" ")`. -/
def MainState.print_space (s : MainState) : MainState :=
  { s with stdout := s.stdout ++ " " }

/-- The state of `main` before the first loop, with the accumulators holding
`g1 .. g4`.  The variables `i` and `j` are not yet assigned (line 21); the
first loop sets them before they are read. -/
def main_start (g1 g2 g3 g4 : Int) : MainState :=
  { i := 0, j := 0, enc_b1 := g1, enc_b2 := g2, enc_b3 := g3, enc_b4 := g4,
    stdout := "", calls := [] }

/-- The four loops of `main` (lines 22-40) on the word `word`, started with
the accumulators holding `g1 .. g4`. -/
def main_loops (word : Int) (g1 g2 g3 g4 : Int) (fuel : Nat) : Option MainState := do
  let s1 ← for_loop word Acc.enc_b1 24 fuel ((main_start g1 g2 g3 g4).loop_init 31 7)
  let s2 ← for_loop word Acc.enc_b2 16 fuel (s1.print_space.loop_init 23 7)
  let s3 ← for_loop word Acc.enc_b3 8 fuel (s2.print_space.loop_init 15 7)
  for_loop word Acc.enc_b4 0 fuel (s3.print_space.loop_init 7 7)

/-- The function `main` from line 16 on.  The accumulators are declared
without an initialiser (lines 17-20), so their initial contents `g1 .. g4`
are indeterminate bytes and are parameters here.  The field `stdout` of the
result is the text written after the line that holds the decoded float. -/
def main (w : Nat) (g1 g2 g3 g4 : Int) (fuel : Nat) : Option MainState :=
  main_loops (main_encode_in w) g1 g2 g3 g4 fuel

/-! ## Auxiliary definitions used by the statements -/

/-- The word rebuilt from the extracted bits as the round-trip law words it:
the bitwise OR, over the positions `p = 0 .. n - 1`, of `bit_return(v, p) << p`
taken as a 32-bit unsigned word. -/
def or_of_bits (v : Int) (n : Nat) : Nat :=
  (List.range n).foldl
    (fun (acc p : Nat) => acc ||| ((bit_return v (p : Int)).toNat <<< p) % 2 ^ 32) 0

/-- The part of the driver state that does not depend on the accumulators:
the loop counters, the text written and the recorded iterations. -/
def MainState.visible (s : MainState) : Int × Int × String × List (Int × Int) :=
  (s.i, s.j, s.stdout, s.calls)

/-- The four accumulators of a driver state. -/
def MainState.accs (s : MainState) : Int × Int × Int × Int :=
  (s.enc_b1, s.enc_b2, s.enc_b3, s.enc_b4)

/-- Two driver states agree on everything but the accumulators, and each
accumulator of `s` is the one of `t` advanced by `d1 .. d4` modulo 256. -/
def MainState.shifted_by (d1 d2 d3 d4 : Int) (s t : MainState) : Prop :=
  s.visible = t.visible ∧ s.enc_b1 = (t.enc_b1 + d1) % 256 ∧
    s.enc_b2 = (t.enc_b2 + d2) % 256 ∧ s.enc_b3 = (t.enc_b3 + d3) % 256 ∧
    s.enc_b4 = (t.enc_b4 + d4) % 256

/-- The accumulator `k` of a driver state. -/
def MainState.get (s : MainState) (k : Acc) : Int :=
  match k with
  | Acc.enc_b1 => s.enc_b1
  | Acc.enc_b2 => s.enc_b2
  | Acc.enc_b3 => s.enc_b3
  | Acc.enc_b4 => s.enc_b4

/-- The `int` value `enc_bk + (bit_return(*encode_in, i) << j)` that the
statement `enc_bk += ...` forms in the state `s`, before it is converted back
to `unsigned char`. -/
def pending_sum (word : Int) (k : Acc) (s : MainState) : Int :=
  s.get k + int_shl (bit_return word s.i) s.j

/-- The sums formed by the successive iterations of a loop, in the order of
the iterations; the recursion is the one of `for_loop`. -/
def for_loop_sums (word : Int) (k : Acc) (lo : Int) : Nat → MainState → List Int
  | 0, _ => []
  | fuel + 1, s =>
    if s.i ≥ lo then
      pending_sum word k s :: for_loop_sums word k lo fuel (loop_body word k s)
    else []

/-- The sums formed by the four loops of `main`, in the order of the
iterations. -/
def main_loops_sums (word : Int) (g1 g2 g3 g4 : Int) (fuel : Nat) : Option (List Int) := do
  let t1 := (main_start g1 g2 g3 g4).loop_init 31 7
  let s1 ← for_loop word Acc.enc_b1 24 fuel t1
  let t2 := s1.print_space.loop_init 23 7
  let s2 ← for_loop word Acc.enc_b2 16 fuel t2
  let t3 := s2.print_space.loop_init 15 7
  let s3 ← for_loop word Acc.enc_b3 8 fuel t3
  let t4 := s3.print_space.loop_init 7 7
  let _ ← for_loop word Acc.enc_b4 0 fuel t4
  pure (for_loop_sums word Acc.enc_b1 24 fuel t1 ++ for_loop_sums word Acc.enc_b2 16 fuel t2
    ++ for_loop_sums word Acc.enc_b3 8 fuel t3 ++ for_loop_sums word Acc.enc_b4 0 fuel t4)

/-! ## Auxiliary facts -/

theorem two_pow_32_le {w : Nat} (hw : 32 ≤ w) : 2 ^ 32 ≤ 2 ^ w :=
  Nat.pow_le_pow_right (by decide) hw

/-- With at least 32 bits no cast or shift of `combine` truncates, and the
disjoint fields add up. -/
theorem combine_eq_sum {w b1 b2 b3 b4 : Nat} (hw : 32 ≤ w)
    (h1 : b1 < 256) (h2 : b2 < 256) (h3 : b3 < 256) (h4 : b4 < 256) :
    combine w b1 b2 b3 b4 = b1 * 2 ^ 24 + b2 * 2 ^ 16 + b3 * 2 ^ 8 + b4 := by
  have hp := two_pow_32_le hw
  have e1 : b1 % 2 ^ w = b1 := Nat.mod_eq_of_lt (by omega)
  have e2 : b2 % 2 ^ w = b2 := Nat.mod_eq_of_lt (by omega)
  have e3 : b3 % 2 ^ w = b3 := Nat.mod_eq_of_lt (by omega)
  have e4 : b4 % 2 ^ w = b4 := Nat.mod_eq_of_lt (by omega)
  have s1 : (b1 * 2 ^ 24) % 2 ^ w = b1 * 2 ^ 24 := Nat.mod_eq_of_lt (by omega)
  have s2 : (b2 * 2 ^ 16) % 2 ^ w = b2 * 2 ^ 16 := Nat.mod_eq_of_lt (by omega)
  have s3 : (b3 * 2 ^ 8) % 2 ^ w = b3 * 2 ^ 8 := Nat.mod_eq_of_lt (by omega)
  have o1 : b1 * 2 ^ 24 ||| b2 * 2 ^ 16 = b1 * 2 ^ 24 + b2 * 2 ^ 16 := by
    have := Nat.mul_add_lt_is_or (show b2 * 2 ^ 16 < 2 ^ 24 by omega) b1
    rw [Nat.mul_comm (2 ^ 24) b1] at this
    exact this.symm
  have o2 : (b1 * 2 ^ 24 + b2 * 2 ^ 16) ||| b3 * 2 ^ 8
      = b1 * 2 ^ 24 + b2 * 2 ^ 16 + b3 * 2 ^ 8 := by
    have := Nat.mul_add_lt_is_or (show b3 * 2 ^ 8 < 2 ^ 16 by omega) (b1 * 2 ^ 8 + b2)
    have e : 2 ^ 16 * (b1 * 2 ^ 8 + b2) = b1 * 2 ^ 24 + b2 * 2 ^ 16 := by omega
    rw [e] at this
    exact this.symm
  have o3 : (b1 * 2 ^ 24 + b2 * 2 ^ 16 + b3 * 2 ^ 8) ||| b4
      = b1 * 2 ^ 24 + b2 * 2 ^ 16 + b3 * 2 ^ 8 + b4 := by
    have := Nat.mul_add_lt_is_or (show b4 < 2 ^ 8 by omega) (b1 * 2 ^ 16 + b2 * 2 ^ 8 + b3)
    have e : 2 ^ 8 * (b1 * 2 ^ 16 + b2 * 2 ^ 8 + b3)
        = b1 * 2 ^ 24 + b2 * 2 ^ 16 + b3 * 2 ^ 8 := by omega
    rw [e] at this
    exact this.symm
  simp only [combine, ulong_shl, ulong_cast, Nat.shiftLeft_eq, e1, e2, e3, e4, s1, s2, s3,
    o1, o2, o3]

theorem int_to_bits_lt (a : Int) : int_to_bits a < 2 ^ 32 := by
  unfold int_to_bits
  have h1 : 0 ≤ a % 2 ^ 32 := Int.emod_nonneg _ (by norm_num)
  have h2 : a % 2 ^ 32 < 2 ^ 32 := Int.emod_lt_of_pos _ (by norm_num)
  omega

theorem int_to_bits_bits_to_int (n : Nat) : int_to_bits (bits_to_int n) = n % 2 ^ 32 := by
  unfold int_to_bits bits_to_int
  have h : n % 2 ^ 32 < 2 ^ 32 := Nat.mod_lt _ (by norm_num)
  split <;> omega

theorem bits_to_int_int_to_bits (a : Int) (h1 : INT_MIN ≤ a) (h2 : a ≤ INT_MAX) :
    bits_to_int (int_to_bits a) = a := by
  unfold bits_to_int int_to_bits
  unfold INT_MIN at h1
  unfold INT_MAX at h2
  split <;> omega

theorem bits_to_int_eq_zero (n : Nat) : bits_to_int n = 0 ↔ n % 2 ^ 32 = 0 := by
  unfold bits_to_int
  have h : n % 2 ^ 32 < 2 ^ 32 := Nat.mod_lt _ (by norm_num)
  split <;> omega

theorem int_shl_one (loc : Int) (h0 : 0 ≤ loc) (h1 : loc ≤ 31) :
    int_to_bits (int_shl 1 loc) = 2 ^ loc.toNat := by
  unfold int_shl
  rw [int_to_bits_bits_to_int]
  have e : (loc % 32).toNat = loc.toNat := by omega
  have o : int_to_bits 1 = 1 := by decide
  rw [e, o, Nat.one_shiftLeft]
  apply Nat.mod_eq_of_lt
  exact Nat.pow_lt_pow_right (by decide) (by omega)

/-- The result of `bit_return` in terms of the bit pattern of its argument. -/
theorem bit_return_eq_testBit (a loc : Int) (h0 : 0 ≤ loc) (h1 : loc ≤ 31) :
    bit_return a loc = if (int_to_bits a).testBit loc.toNat then 1 else 0 := by
  unfold bit_return int_and
  simp only [int_shl_one loc h0 h1, bits_to_int_eq_zero, Nat.and_two_pow]
  have hk : (2 : Nat) ^ loc.toNat < 2 ^ 32 := Nat.pow_lt_pow_right (by decide) (by omega)
  have hpos : 0 < (2 : Nat) ^ loc.toNat := Nat.pos_pow_of_pos _ (by decide)
  cases hb : (int_to_bits a).testBit loc.toNat
  · simp
  · have hne : ¬ ((2 : Nat) ^ loc.toNat % 2 ^ 32 = 0) := by
      rw [Nat.mod_eq_of_lt hk]; omega
    simpa using hne

theorem testBit_int_to_bits (a : Int) (k : Nat) (hk : k < 32) :
    (int_to_bits a).testBit k = decide (a / 2 ^ k % 2 = 1) := by
  rw [Nat.testBit_to_div_mod, decide_eq_decide]
  unfold int_to_bits
  interval_cases k <;> norm_num <;> omega

theorem bit_return_eq_div_mod (a loc : Int) (h0 : 0 ≤ loc) (h1 : loc ≤ 31) :
    bit_return a loc = a / 2 ^ loc.toNat % 2 := by
  rw [bit_return_eq_testBit a loc h0 h1, testBit_int_to_bits a loc.toNat (by omega)]
  have := Int.emod_two_eq (a / 2 ^ loc.toNat)
  by_cases h : a / 2 ^ loc.toNat % 2 = 1
  · simp [h]
  · have h0 : a / 2 ^ loc.toNat % 2 = 0 := by omega
    simp [h0]

theorem bit_return_toNat (v : Int) (p : Nat) (hp : p < 32) :
    (bit_return v p).toNat = ((int_to_bits v).testBit p).toNat := by
  rw [bit_return_eq_testBit v p (by omega) (by omega)]
  simp only [Int.toNat_ofNat]
  by_cases hb : (int_to_bits v).testBit p = true
  · simp [hb]
  · simp [hb]

theorem mod_two_pow_succ_eq_or (x n : Nat) (hn : n < 32) :
    x % 2 ^ n ||| ((x.testBit n).toNat <<< n) % 2 ^ 32 = x % 2 ^ (n + 1) := by
  have hlt : (x.testBit n).toNat <<< n < 2 ^ 32 := by
    rw [Nat.shiftLeft_eq]
    have : (2 : Nat) ^ n < 2 ^ 32 := Nat.pow_lt_pow_right (by decide) hn
    cases x.testBit n
    · simp
    · simp; omega
  rw [Nat.mod_eq_of_lt hlt]
  apply Nat.eq_of_testBit_eq
  intro i
  simp only [Nat.testBit_or, Nat.testBit_mod_two_pow, Nat.testBit_shiftLeft,
    Nat.testBit_bool_to_nat]
  rcases Nat.lt_trichotomy i n with h | h | h
  · have h1 : i < n + 1 := by omega
    have h2 : ¬ (i ≥ n) := by omega
    simp [h, h1, h2]
  · subst h
    simp
  · have h1 : ¬ (i < n + 1) := by omega
    have h2 : ¬ (i < n) := by omega
    have h3 : ¬ (i - n = 0) := by omega
    simp [h1, h2, h3]

theorem or_of_bits_eq_mod (v : Int) (n : Nat) (hn : n ≤ 32) :
    or_of_bits v n = int_to_bits v % 2 ^ n := by
  induction n with
  | zero => simp [or_of_bits, Nat.mod_one]
  | succ n ih =>
    have ih := ih (by omega)
    unfold or_of_bits at ih ⊢
    rw [List.range_succ, List.foldl_append, ih]
    simp only [List.foldl_cons, List.foldl_nil]
    rw [bit_return_toNat v n (by omega)]
    exact mod_two_pow_succ_eq_or _ n (by omega)

/-! ## The two utility functions: main results -/

/-- C1: for every four bytes and every width `w ≥ 32` of `unsigned long int`,
`combine` returns `(b1 << 24) | (b2 << 16) | (b3 << 8) | b4`, the shifts and
the OR being those of unbounded unsigned arithmetic: no cast and no shift of
the code truncates.  The fields being disjoint, this is also the sum
`b1 * 2^24 + b2 * 2^16 + b3 * 2^8 + b4`. -/
theorem combine_eq_shift_or (w b1 b2 b3 b4 : Nat) (hw : 32 ≤ w)
    (h1 : b1 < 256) (h2 : b2 < 256) (h3 : b3 < 256) (h4 : b4 < 256) :
    combine w b1 b2 b3 b4 = (((b1 <<< 24) ||| (b2 <<< 16)) ||| (b3 <<< 8)) ||| b4 ∧
      combine w b1 b2 b3 b4 = b1 * 2 ^ 24 + b2 * 2 ^ 16 + b3 * 2 ^ 8 + b4 := by
  refine ⟨?_, combine_eq_sum hw h1 h2 h3 h4⟩
  have hp := two_pow_32_le hw
  have e1 : b1 % 2 ^ w = b1 := Nat.mod_eq_of_lt (by omega)
  have e2 : b2 % 2 ^ w = b2 := Nat.mod_eq_of_lt (by omega)
  have e3 : b3 % 2 ^ w = b3 := Nat.mod_eq_of_lt (by omega)
  have e4 : b4 % 2 ^ w = b4 := Nat.mod_eq_of_lt (by omega)
  have s1 : (b1 * 2 ^ 24) % 2 ^ w = b1 * 2 ^ 24 := Nat.mod_eq_of_lt (by omega)
  have s2 : (b2 * 2 ^ 16) % 2 ^ w = b2 * 2 ^ 16 := Nat.mod_eq_of_lt (by omega)
  have s3 : (b3 * 2 ^ 8) % 2 ^ w = b3 * 2 ^ 8 := Nat.mod_eq_of_lt (by omega)
  simp only [combine, ulong_shl, ulong_cast, Nat.shiftLeft_eq, e1, e2, e3, e4, s1, s2, s3]

/-- The packing law at the bytes of the driver, with a 64-bit `unsigned long int`. -/
theorem combine_eq_shift_or_witness :
    32 ≤ 64 ∧ 191 < 256 ∧ 224 < 256 ∧ 0 < 256 ∧
      combine 64 191 224 0 0 = (((191 <<< 24) ||| (224 <<< 16)) ||| (0 <<< 8)) ||| 0 :=
  ⟨by decide, by decide, by decide, by decide,
    (combine_eq_shift_or 64 191 224 0 0 (by decide) (by decide) (by decide) (by decide)
      (by decide)).1⟩

/-- C2: for every `int` value `a` and every position `loc` from 0 to 31,
`bit_return a loc` is 1 when bit `loc` of the 32-bit two's-complement pattern
of `a` is set and 0 otherwise; equivalently it is `(a / 2 ^ loc) mod 2` with
flooring division.  At `loc = 31` it tells the sign of `a`. -/
theorem bit_return_correct (a loc : Int) (ha : INT_MIN ≤ a ∧ a ≤ INT_MAX)
    (hloc : 0 ≤ loc ∧ loc ≤ 31) :
    bit_return a loc = (if (int_to_bits a).testBit loc.toNat then 1 else 0) ∧
      bit_return a loc = a / 2 ^ loc.toNat % 2 ∧
      bit_return a 31 = (if a < 0 then 1 else 0) := by
  refine ⟨bit_return_eq_testBit a loc hloc.1 hloc.2,
    bit_return_eq_div_mod a loc hloc.1 hloc.2, ?_⟩
  rw [bit_return_eq_div_mod a 31 (by decide) (by decide)]
  obtain ⟨h1, h2⟩ := ha
  unfold INT_MIN at h1
  unfold INT_MAX at h2
  have e : (31 : Int).toNat = 31 := rfl
  rw [e]
  split <;> omega

/-- The sign bit of the driver word `0xBFE00000`, read as an `int`, is extracted as 1. -/
theorem bit_return_correct_witness :
    (INT_MIN ≤ (-1075838976 : Int) ∧ (-1075838976 : Int) ≤ INT_MAX) ∧
      ((0 : Int) ≤ 31 ∧ (31 : Int) ≤ 31) ∧
      bit_return (-1075838976) 31 = 1 := by
  have h := bit_return_correct (-1075838976) 31 (by decide) (by decide)
  exact ⟨by decide, by decide, h.2.2.trans (by decide)⟩

/-- C3: round-trip law of `bit_return`.  For every `int` value `v`, each
`bit_return v p` with `p` from 0 to 31 is 0 or 1, and the OR over these `p`
of `bit_return v p << p`, taken as a 32-bit word, is the bit pattern of `v`
and converts back to `v` itself. -/
theorem bit_return_round_trip (v : Int) (hv : INT_MIN ≤ v ∧ v ≤ INT_MAX) :
    (∀ p : Int, 0 ≤ p → p ≤ 31 → bit_return v p = 0 ∨ bit_return v p = 1) ∧
      or_of_bits v 32 = int_to_bits v ∧
      bits_to_int (or_of_bits v 32) = v := by
  have hor : or_of_bits v 32 = int_to_bits v := by
    rw [or_of_bits_eq_mod v 32 (Nat.le_refl _)]
    exact Nat.mod_eq_of_lt (int_to_bits_lt v)
  refine ⟨?_, hor, ?_⟩
  · intro p h0 h1
    rw [bit_return_eq_testBit v p h0 h1]
    by_cases hb : (int_to_bits v).testBit p.toNat = true
    · right; simp [hb]
    · left; simp [hb]
  · rw [hor]
    exact bits_to_int_int_to_bits v hv.1 hv.2

/-- The round trip at the driver word `0xBFE00000`, read as an `int`. -/
theorem bit_return_round_trip_witness :
    (INT_MIN ≤ (-1075838976 : Int) ∧ (-1075838976 : Int) ≤ INT_MAX) ∧
      or_of_bits (-1075838976) 32 = 3219128320 ∧
      bits_to_int (or_of_bits (-1075838976) 32) = -1075838976 := by
  have h := bit_return_round_trip (-1075838976) (by decide)
  exact ⟨by decide, h.2.1.trans (by decide), h.2.2⟩

/-- C4: for every four bytes, `combine` returns a value below `2 ^ 32` whose
bits 31..24 hold `b1`, bits 23..16 hold `b2`, bits 15..8 hold `b3` and bits
7..0 hold `b4`; hence two byte quartets with the same packed word are
equal. -/
theorem combine_layout (w b1 b2 b3 b4 : Nat) (hw : 32 ≤ w)
    (h1 : b1 < 256) (h2 : b2 < 256) (h3 : b3 < 256) (h4 : b4 < 256) :
    combine w b1 b2 b3 b4 < 2 ^ 32 ∧
      (combine w b1 b2 b3 b4 >>> 24) &&& 0xFF = b1 ∧
      (combine w b1 b2 b3 b4 >>> 16) &&& 0xFF = b2 ∧
      (combine w b1 b2 b3 b4 >>> 8) &&& 0xFF = b3 ∧
      combine w b1 b2 b3 b4 &&& 0xFF = b4 ∧
      (∀ c1 c2 c3 c4 : Nat, c1 < 256 → c2 < 256 → c3 < 256 → c4 < 256 →
        combine w c1 c2 c3 c4 = combine w b1 b2 b3 b4 →
        c1 = b1 ∧ c2 = b2 ∧ c3 = b3 ∧ c4 = b4) := by
  have hm : ∀ x : Nat, x &&& 0xFF = x % 256 := fun x =>
    Nat.and_pow_two_sub_one_eq_mod x 8
  rw [combine_eq_sum hw h1 h2 h3 h4]
  simp only [hm, Nat.shiftRight_eq_div_pow]
  refine ⟨by omega, by omega, by omega, by omega, by omega, ?_⟩
  intro c1 c2 c3 c4 k1 k2 k3 k4 hc
  rw [combine_eq_sum hw k1 k2 k3 k4] at hc
  omega

/-- The two upper fields of the driver word hold the bytes 191 and 224. -/
theorem combine_layout_witness :
    32 ≤ 64 ∧ 191 < 256 ∧ 224 < 256 ∧ 0 < 256 ∧
      (combine 64 191 224 0 0 >>> 24) &&& 0xFF = 191 ∧
      (combine 64 191 224 0 0 >>> 16) &&& 0xFF = 224 := by
  have h := combine_layout 64 191 224 0 0 (by decide) (by decide) (by decide) (by decide)
    (by decide)
  exact ⟨by decide, by decide, by decide, by decide, h.2.1, h.2.2.1⟩

/-- C8: `combine 0 0 0 0` is 0 and `combine 255 255 255 255` is `0xFFFFFFFF`,
and every value returned by `combine` on four bytes lies between these
two. -/
theorem combine_extremes (w : Nat) (hw : 32 ≤ w) :
    combine w 0 0 0 0 = 0 ∧ combine w 255 255 255 255 = 0xFFFFFFFF ∧
      (∀ b1 b2 b3 b4 : Nat, b1 < 256 → b2 < 256 → b3 < 256 → b4 < 256 →
        combine w 0 0 0 0 ≤ combine w b1 b2 b3 b4 ∧
          combine w b1 b2 b3 b4 ≤ combine w 255 255 255 255) := by
  have e0 := combine_eq_sum hw (show 0 < 256 by decide) (show 0 < 256 by decide)
    (show 0 < 256 by decide) (show 0 < 256 by decide)
  have e1 := combine_eq_sum hw (show 255 < 256 by decide) (show 255 < 256 by decide)
    (show 255 < 256 by decide) (show 255 < 256 by decide)
  refine ⟨e0.trans (by norm_num), e1.trans (by norm_num), ?_⟩
  intro b1 b2 b3 b4 h1 h2 h3 h4
  rw [e0, e1, combine_eq_sum hw h1 h2 h3 h4]
  omega

/-- The two extreme values with a 32-bit `unsigned long int`. -/
theorem combine_extremes_witness :
    32 ≤ 32 ∧ combine 32 0 0 0 0 = 0 ∧ combine 32 255 255 255 255 = 4294967295 := by
  have h := combine_extremes 32 (by decide)
  exact ⟨by decide, h.1, h.2.1⟩

/-- C10: `bit_return(0b1010, 1)` is 1 and `bit_return(0b1010, 0)` is 0. -/
theorem bit_return_examples : bit_return 0b1010 1 = 1 ∧ bit_return 0b1010 0 = 0 := by
  decide

/-! ### Checked semantics -/

theorem int_shl_checked_one (loc : Int) (h0 : 0 ≤ loc) (h1 : loc ≤ 30) :
    int_shl_checked 1 loc = some (2 ^ loc.toNat) := by
  unfold int_shl_checked INT_MAX
  have hp : (2 : Int) ^ loc.toNat ≤ 2 ^ 30 :=
    pow_le_pow_right₀ (by norm_num) (by omega)
  rw [if_pos ⟨h0, by omega, by norm_num, by omega⟩, one_mul]

theorem int_shl_one_eq (loc : Int) (h0 : 0 ≤ loc) (h1 : loc ≤ 30) :
    int_shl 1 loc = 2 ^ loc.toNat := by
  unfold int_shl
  have e : (loc % 32).toNat = loc.toNat := by omega
  have o : int_to_bits 1 = 1 := by decide
  have hp : (2 : Nat) ^ loc.toNat ≤ 2 ^ 30 := Nat.pow_le_pow_right (by decide) (by omega)
  rw [e, o, Nat.one_shiftLeft]
  unfold bits_to_int
  have hm : (2 : Nat) ^ loc.toNat % 2 ^ 32 = 2 ^ loc.toNat := Nat.mod_eq_of_lt (by omega)
  rw [hm, if_pos (by omega)]
  push_cast
  rfl

/-- Where ISO C defines `bit_return`, the machine semantics computes the
defined result: this is the case for every position from 0 to 30. -/
theorem bit_return_checked_eq (a loc : Int) (h0 : 0 ≤ loc) (h1 : loc ≤ 30) :
    bit_return_checked a loc = some (bit_return a loc) := by
  unfold bit_return_checked bit_return
  rw [int_shl_checked_one loc h0 h1, int_shl_one_eq loc h0 h1]
  simp only [Option.bind_eq_bind, Option.some_bind]
  split <;> rfl

/-- The mask `1<<31` is not representable in `int`, whatever the value
inspected. -/
theorem bit_return_checked_31 (a : Int) : bit_return_checked a 31 = none := by
  have h : int_shl_checked 1 31 = none := by decide
  unfold bit_return_checked
  rw [h]
  rfl

/-- Every shift of `combine` is in range once `unsigned long int` has at
least 32 bits, and the checked result is the machine result. -/
theorem combine_checked_eq (w b1 b2 b3 b4 : Nat) (hw : 32 ≤ w) :
    combine_checked w b1 b2 b3 b4 = some (combine w b1 b2 b3 b4) := by
  unfold combine_checked combine ulong_shl_checked ulong_shl
  rw [if_pos (by omega), if_pos (by omega), if_pos (by omega)]
  rfl

/-- C5: at position 31, which `main` passes in its first loop iteration, the
mask `1 << 31` of `bit_return` is not representable in `int`, so the checked
semantics has no result for `bit_return(*encode_in, 31)`; the machine
semantics wraps the mask to `INT_MIN` and returns 1. -/
theorem bit_return_sign_bit_undefined :
    INT_MAX < 1 * 2 ^ 31 ∧ int_shl_checked 1 31 = none ∧
      bit_return_checked (-1075838976) 31 = none ∧ bit_return (-1075838976) 31 = 1 := by
  decide

/-! ### The driver -/

theorem main_out_eq (w : Nat) (hw : 32 ≤ w) : main_out w = 0xBFE00000 := by
  unfold main_out
  rw [combine_eq_sum hw (by decide) (by decide) (by decide) (by decide)]
  norm_num

theorem main_word_bits_eq (w : Nat) (hw : 32 ≤ w) : main_word_bits w = 0xBFE00000 := by
  unfold main_word_bits
  rw [main_out_eq w hw]
  norm_num

theorem main_encode_in_eq (w : Nat) (hw : 32 ≤ w) : main_encode_in w = -1075838976 := by
  unfold main_encode_in
  rw [main_word_bits_eq w hw]
  decide

/-- C6: in the fixed example of `main`, `combine(191, 224, 0, 0)` is
`0xBFE00000`; as a binary32 pattern it has sign 1, biased exponent 127 and
fraction `0x600000`, and its exact value is the rational `-7/4`. -/
theorem main_float_example (w : Nat) (hw : 32 ≤ w) :
    combine w 191 224 0 0 = 0xBFE00000 ∧
      main_word_bits w = 0xBFE00000 ∧
      float_sign (main_word_bits w) = 1 ∧
      float_exponent (main_word_bits w) = 127 ∧
      float_fraction (main_word_bits w) = 0x600000 ∧
      float_value (main_word_bits w) = some (-7 / 4) := by
  rw [main_word_bits_eq w hw]
  refine ⟨main_out_eq w hw, rfl, by decide, by decide, by decide, ?_⟩
  have hs : float_sign 0xBFE00000 = 1 := by decide
  have he : float_exponent 0xBFE00000 = 127 := by decide
  have hf : float_fraction 0xBFE00000 = 0x600000 := by decide
  unfold float_value
  simp only [hs, he, hf]
  norm_num

/-- The driver example with a 64-bit `unsigned long int`. -/
theorem main_float_example_witness :
    32 ≤ 64 ∧ combine 64 191 224 0 0 = 3219128320 ∧
      float_value (main_word_bits 64) = some (-7 / 4) := by
  have h := main_float_example 64 (by decide)
  exact ⟨by decide, h.1, h.2.2.2.2.2⟩

theorem loop_body_visible (word : Int) (k : Acc) (s : MainState) :
    (loop_body word k s).visible =
      (s.i - 1, s.j - 1, s.stdout ++ printf_d (bit_return word s.i),
        s.calls ++ [(s.i, s.j)]) := by
  cases k <;> rfl

/-- The counters, the output and the recorded iterations of a loop do not
depend on the accumulators. -/
theorem for_loop_visible (word : Int) (k : Acc) (lo : Int) (fuel : Nat) :
    ∀ s t : MainState, s.visible = t.visible →
      (for_loop word k lo fuel s).map MainState.visible
        = (for_loop word k lo fuel t).map MainState.visible := by
  induction fuel with
  | zero => intro s t _; rfl
  | succ n ih =>
    intro s t h
    have hi : s.i = t.i := congrArg Prod.fst h
    have hb : (loop_body word k s).visible = (loop_body word k t).visible := by
      rw [loop_body_visible, loop_body_visible]
      simp only [MainState.visible, Prod.mk.injEq] at h
      obtain ⟨h1, h2, h3, h4⟩ := h
      rw [h1, h2, h3, h4]
    unfold for_loop
    rw [hi]
    split
    · exact ih _ _ hb
    · simp only [Option.map_some']
      rw [h]

theorem for_loop_mono (word : Int) (k : Acc) (lo : Int) (n : Nat) :
    ∀ (s r : MainState) (m : Nat), n ≤ m → for_loop word k lo n s = some r →
      for_loop word k lo m s = some r := by
  induction n with
  | zero => intro s r m _ h; simp [for_loop] at h
  | succ n ih =>
    intro s r m hm h
    obtain ⟨m, rfl⟩ : ∃ m1, m = m1 + 1 := ⟨m - 1, by omega⟩
    unfold for_loop at h ⊢
    split
    · rename_i hc
      rw [if_pos hc] at h
      exact ih _ _ _ (by omega) h
    · rename_i hc
      rw [if_neg hc] at h
      exact h

theorem main_loops_mono (word g1 g2 g3 g4 : Int) (n m : Nat) (r : MainState) (hm : n ≤ m)
    (h : main_loops word g1 g2 g3 g4 n = some r) :
    main_loops word g1 g2 g3 g4 m = some r := by
  unfold main_loops at h ⊢
  simp only [Option.bind_eq_bind, Option.bind_eq_some] at h ⊢
  obtain ⟨s1, h1, s2, h2, s3, h3, h4⟩ := h
  exact ⟨s1, for_loop_mono _ _ _ _ _ _ _ hm h1, s2, for_loop_mono _ _ _ _ _ _ _ hm h2,
    s3, for_loop_mono _ _ _ _ _ _ _ hm h3, for_loop_mono _ _ _ _ _ _ _ hm h4⟩

theorem bind_visible_congr (x y : Option MainState) (f g : MainState → Option MainState)
    (hxy : x.map MainState.visible = y.map MainState.visible)
    (hfg : ∀ s t : MainState, s.visible = t.visible →
      (f s).map MainState.visible = (g t).map MainState.visible) :
    (x.bind f).map MainState.visible = (y.bind g).map MainState.visible := by
  cases x with
  | none =>
    cases y with
    | none => rfl
    | some b => simp at hxy
  | some a =>
    cases y with
    | none => simp at hxy
    | some b =>
      simp only [Option.map_some', Option.some.injEq] at hxy
      simpa using hfg a b hxy

theorem next_group_visible (s t : MainState) (i0 j0 : Int) (h : s.visible = t.visible) :
    (s.print_space.loop_init i0 j0).visible = (t.print_space.loop_init i0 j0).visible := by
  simp only [MainState.visible, Prod.mk.injEq] at h
  obtain ⟨_, _, h3, h4⟩ := h
  simp only [MainState.visible, MainState.loop_init, MainState.print_space, h3, h4]

theorem main_loops_visible (word g1 g2 g3 g4 : Int) (fuel : Nat) :
    (main_loops word g1 g2 g3 g4 fuel).map MainState.visible
      = (main_loops word 0 0 0 0 fuel).map MainState.visible := by
  unfold main_loops
  simp only [Option.bind_eq_bind]
  apply bind_visible_congr
  · exact for_loop_visible _ _ _ _ _ _ rfl
  intro s1 t1 e1
  apply bind_visible_congr
  · exact for_loop_visible _ _ _ _ _ _ (next_group_visible _ _ _ _ e1)
  intro s2 t2 e2
  apply bind_visible_congr
  · exact for_loop_visible _ _ _ _ _ _ (next_group_visible _ _ _ _ e2)
  intro s3 t3 e3
  exact for_loop_visible _ _ _ _ _ _ (next_group_visible _ _ _ _ e3)

set_option maxRecDepth 100000 in
theorem main_loops_example_visible :
    (main_loops (-1075838976) 0 0 0 0 9).map MainState.visible
      = some (-1, -1, "10111111 11100000 00000000 00000000",
          [(31, 7), (30, 6), (29, 5), (28, 4), (27, 3), (26, 2), (25, 1), (24, 0),
           (23, 7), (22, 6), (21, 5), (20, 4), (19, 3), (18, 2), (17, 1), (16, 0),
           (15, 7), (14, 6), (13, 5), (12, 4), (11, 3), (10, 2), (9, 1), (8, 0),
           (7, 7), (6, 6), (5, 5), (4, 4), (3, 3), (2, 2), (1, 1), (0, 0)]) := by
  decide

/-- C9: whatever the initial contents of the accumulators, and with any fuel of
at least 9 steps per loop, the text that `main` writes after the line of the
decoded float is `10111111 11100000 00000000 00000000`: bits 31 down to 0 of
the packed word in four space-separated groups of eight. -/
theorem main_stdout (w : Nat) (g1 g2 g3 g4 : Int) (fuel : Nat) (hw : 32 ≤ w)
    (hf : 9 ≤ fuel) :
    (main w g1 g2 g3 g4 fuel).map MainState.stdout
      = some "10111111 11100000 00000000 00000000" := by
  unfold main
  rw [main_encode_in_eq w hw]
  have h9 := (main_loops_visible (-1075838976) g1 g2 g3 g4 9).trans
    main_loops_example_visible
  obtain ⟨r, hr, hv⟩ := Option.map_eq_some'.mp h9
  rw [main_loops_mono _ _ _ _ _ 9 fuel r hf hr]
  simp only [Option.map_some', Option.some.injEq]
  exact congrArg (fun v => v.2.2.1) hv

set_option maxRecDepth 100000 in
/-- The text written when the accumulators start from the bytes 17, 0, 255, 3. -/
theorem main_stdout_witness :
    32 ≤ 64 ∧ 9 ≤ 9 ∧
      (main 64 17 0 255 3 9).map MainState.stdout
        = some "10111111 11100000 00000000 00000000" :=
  ⟨by decide, by decide, main_stdout 64 17 0 255 3 9 (by decide) (by decide)⟩

theorem loop_body_shifted (word : Int) (k : Acc) (d1 d2 d3 d4 : Int) (s t : MainState)
    (h : MainState.shifted_by d1 d2 d3 d4 s t) :
    MainState.shifted_by d1 d2 d3 d4 (loop_body word k s) (loop_body word k t) := by
  obtain ⟨hv, e1, e2, e3, e4⟩ := h
  have hv2 := hv
  simp only [MainState.visible, Prod.mk.injEq] at hv2
  obtain ⟨hi, hj, ho, hc⟩ := hv2
  refine ⟨?_, ?_⟩
  · rw [loop_body_visible, loop_body_visible, hi, hj, ho, hc]
  · cases k <;>
      simp only [loop_body, MainState.add_to, uchar_cast, hi, hj, e1, e2, e3, e4] <;>
      refine ⟨?_, ?_, ?_, ?_⟩ <;> first | trivial | omega

theorem for_loop_shifted (word : Int) (k : Acc) (lo d1 d2 d3 d4 : Int) (fuel : Nat) :
    ∀ s t r : MainState, MainState.shifted_by d1 d2 d3 d4 s t →
      for_loop word k lo fuel t = some r →
      ∃ q, for_loop word k lo fuel s = some q ∧ MainState.shifted_by d1 d2 d3 d4 q r := by
  induction fuel with
  | zero => intro s t r _ h; simp [for_loop] at h
  | succ n ih =>
    intro s t r hst h
    have hi : s.i = t.i := congrArg Prod.fst hst.1
    unfold for_loop at h ⊢
    rw [hi]
    split
    · rename_i hc
      rw [if_pos hc] at h
      exact ih _ _ _ (loop_body_shifted word k d1 d2 d3 d4 s t hst) h
    · rename_i hc
      rw [if_neg hc] at h
      cases h
      exact ⟨s, rfl, hst⟩

theorem next_group_shifted (d1 d2 d3 d4 i0 j0 : Int) (s t : MainState)
    (h : MainState.shifted_by d1 d2 d3 d4 s t) :
    MainState.shifted_by d1 d2 d3 d4 (s.print_space.loop_init i0 j0)
      (t.print_space.loop_init i0 j0) :=
  ⟨next_group_visible s t i0 j0 h.1, h.2⟩

theorem main_loops_shifted (word g1 g2 g3 g4 : Int) (fuel : Nat) (r : MainState)
    (h1 : 0 ≤ g1 ∧ g1 < 256) (h2 : 0 ≤ g2 ∧ g2 < 256) (h3 : 0 ≤ g3 ∧ g3 < 256)
    (h4 : 0 ≤ g4 ∧ g4 < 256) (h : main_loops word 0 0 0 0 fuel = some r) :
    ∃ q, main_loops word g1 g2 g3 g4 fuel = some q ∧
      MainState.shifted_by g1 g2 g3 g4 q r := by
  unfold main_loops at h ⊢
  simp only [Option.bind_eq_bind, Option.bind_eq_some] at h ⊢
  obtain ⟨t1, k1, t2, k2, t3, k3, k4⟩ := h
  have h0 : MainState.shifted_by g1 g2 g3 g4 ((main_start g1 g2 g3 g4).loop_init 31 7)
      ((main_start 0 0 0 0).loop_init 31 7) := by
    refine ⟨rfl, ?_, ?_, ?_, ?_⟩ <;>
      simp only [main_start, MainState.loop_init] <;> omega
  obtain ⟨s1, e1, r1⟩ := for_loop_shifted _ _ _ _ _ _ _ _ _ _ _ h0 k1
  obtain ⟨s2, e2, r2⟩ := for_loop_shifted _ _ _ _ _ _ _ _ _ _ _
    (next_group_shifted _ _ _ _ 23 7 _ _ r1) k2
  obtain ⟨s3, e3, r3⟩ := for_loop_shifted _ _ _ _ _ _ _ _ _ _ _
    (next_group_shifted _ _ _ _ 15 7 _ _ r2) k3
  obtain ⟨s4, e4, r4⟩ := for_loop_shifted _ _ _ _ _ _ _ _ _ _ _
    (next_group_shifted _ _ _ _ 7 7 _ _ r3) k4
  exact ⟨s4, ⟨s1, e1, s2, e2, s3, e3, e4⟩, r4⟩

theorem main_loops_example_accs :
    (main_loops (-1075838976) 0 0 0 0 9).map MainState.accs = some (191, 224, 0, 0) := by
  decide

/-- The bytes left in the accumulators by `main`: each is the byte of the
packed word plus the initial content of the accumulator, modulo 256. -/
theorem main_accumulators (w : Nat) (g1 g2 g3 g4 : Int) (fuel : Nat) (hw : 32 ≤ w)
    (hf : 9 ≤ fuel) (h1 : 0 ≤ g1 ∧ g1 < 256) (h2 : 0 ≤ g2 ∧ g2 < 256)
    (h3 : 0 ≤ g3 ∧ g3 < 256) (h4 : 0 ≤ g4 ∧ g4 < 256) :
    (main w g1 g2 g3 g4 fuel).map MainState.accs
      = some ((191 + g1) % 256, (224 + g2) % 256, g3, g4) := by
  unfold main
  rw [main_encode_in_eq w hw]
  obtain ⟨r, hr, ha⟩ := Option.map_eq_some'.mp main_loops_example_accs
  obtain ⟨q, hq, -, e1, e2, e3, e4⟩ := main_loops_shifted _ g1 g2 g3 g4 9 r h1 h2 h3 h4 hr
  rw [main_loops_mono _ _ _ _ _ 9 fuel q hf hq]
  simp only [MainState.accs, Prod.mk.injEq] at ha
  obtain ⟨a1, a2, a3, a4⟩ := ha
  simp only [Option.map_some', Option.some.injEq, MainState.accs, Prod.mk.injEq, e1, e2, e3,
    e4, a1, a2, a3, a4]
  refine ⟨?_, ?_, ?_, ?_⟩ <;> first | trivial | omega

/-- C7: the bytes that `main` reconstructs depend on what the accumulators held
before the loops.  Started from the contents 1, 2, 3, 4 the loops end with
192, 226, 3, 4, not with the input bytes; only when the four accumulators
happen to hold 0 do they end with 191, 224, 0, 0. -/
theorem main_uninitialised_accumulators :
    (main 64 1 2 3 4 9).map MainState.accs = some (192, 226, 3, 4) ∧
      (main 64 0 0 0 0 9).map MainState.accs = some (191, 224, 0, 0) := by
  decide

/-! ### The loops of the driver in general -/

theorem int_shl_bit (x : Int) (m : Nat) (hx : x = 0 ∨ x = 1) (hm : m < 8) :
    int_shl x (m : Int) = x * 2 ^ m := by
  rcases hx with rfl | rfl <;> interval_cases m <;> decide

theorem loop_body_i (word : Int) (k : Acc) (s : MainState) :
    (loop_body word k s).i = s.i - 1 := congrArg (fun v => v.1) (loop_body_visible word k s)

theorem loop_body_j (word : Int) (k : Acc) (s : MainState) :
    (loop_body word k s).j = s.j - 1 := congrArg (fun v => v.2.1) (loop_body_visible word k s)

theorem loop_body_calls (word : Int) (k : Acc) (s : MainState) :
    (loop_body word k s).calls = s.calls ++ [(s.i, s.j)] :=
  congrArg (fun v => v.2.2.2) (loop_body_visible word k s)

/-- A loop entered with `m` positions left above its bound ends after exactly
`m` iterations, whatever the word: its counters go down by `m` and it records
the `m` pairs `(i, j), (i - 1, j - 1), ...`. -/
theorem for_loop_calls (word : Int) (k : Acc) (lo : Int) (m : Nat) :
    ∀ (fuel : Nat) (s : MainState), s.i = lo + m - 1 → m < fuel →
      ∃ r, for_loop word k lo fuel s = some r ∧ r.i = lo - 1 ∧ r.j = s.j - m ∧
        r.calls = s.calls ++ (List.range m).map (fun (t : Nat) => (s.i - (t : Int), s.j - (t : Int))) := by
  induction m with
  | zero =>
    intro fuel s hi hf
    obtain ⟨f, rfl⟩ : ∃ f, fuel = f + 1 := ⟨fuel - 1, by omega⟩
    refine ⟨s, ?_, by omega, by simp, by simp⟩
    unfold for_loop
    rw [if_neg (by omega)]
  | succ m ih =>
    intro fuel s hi hf
    obtain ⟨f, rfl⟩ : ∃ f, fuel = f + 1 := ⟨fuel - 1, by omega⟩
    obtain ⟨r, hr, ri, rj, rc⟩ := ih f (loop_body word k s)
      (by rw [loop_body_i]; push_cast at hi; omega) (by omega)
    refine ⟨r, ?_, ri, ?_, ?_⟩
    · unfold for_loop
      rw [if_pos (by push_cast at hi; omega)]
      exact hr
    · rw [rj, loop_body_j]; push_cast; omega
    · rw [rc, loop_body_calls, loop_body_i, loop_body_j, List.range_succ_eq_map,
        List.map_cons, List.map_map, List.append_assoc]
      simp only [List.singleton_append, List.append_cancel_left_eq, Nat.cast_zero, sub_zero,
        List.cons.injEq, true_and]
      apply List.map_congr_left
      intro t _
      simp only [Function.comp, Nat.succ_eq_add_one, Nat.cast_add, Nat.cast_one, Prod.mk.injEq]
      constructor <;> omega

theorem next_group_calls (s : MainState) (i0 j0 : Int) :
    (s.print_space.loop_init i0 j0).calls = s.calls := rfl

theorem bit_return_zero_or_one (a loc : Int) : bit_return a loc = 0 ∨ bit_return a loc = 1 := by
  by_cases h : int_and a (int_shl 1 loc) = 0
  · exact Or.inl (if_pos h)
  · exact Or.inr (if_neg h)

/-- Shifting an extracted bit left by a count from 0 to 7 is defined in ISO C
and is what the machine semantics computes. -/
theorem int_shl_checked_bit (x j : Int) (hx : x = 0 ∨ x = 1) (h0 : 0 ≤ j) (h7 : j ≤ 7) :
    int_shl_checked x j = some (int_shl x j) := by
  obtain ⟨m, rfl⟩ : ∃ m : Nat, j = (m : Int) := ⟨j.toNat, by omega⟩
  have hm : m < 8 := by omega
  rcases hx with rfl | rfl <;> interval_cases m <;> decide

/-- C12: whatever the word, the initial contents of the accumulators and the
fuel from 9 steps on, each of the four loops of `main` ends after exactly
eight iterations, and the iterations run through the positions
`i = 31, 30, ..., 0` in strictly descending order with `j = 7, ..., 0` in each
loop.  Every position is in `[0, 31]`, every `j` is in `[0, 7]` and equals
`i mod 8`, and the shift `bit_return(...) << j` of every iteration is defined
in ISO C.  (Each iteration passes its position to `bit_return` twice, at the
`printf` and at the `+=`.) -/
theorem main_loop_arguments (word g1 g2 g3 g4 : Int) (fuel : Nat) (hf : 9 ≤ fuel) :
    ∃ s1 s2 s3 s4 : MainState,
      for_loop word Acc.enc_b1 24 fuel ((main_start g1 g2 g3 g4).loop_init 31 7) = some s1 ∧
      for_loop word Acc.enc_b2 16 fuel (s1.print_space.loop_init 23 7) = some s2 ∧
      for_loop word Acc.enc_b3 8 fuel (s2.print_space.loop_init 15 7) = some s3 ∧
      for_loop word Acc.enc_b4 0 fuel (s3.print_space.loop_init 7 7) = some s4 ∧
      main_loops word g1 g2 g3 g4 fuel = some s4 ∧
      s1.calls = [(31, 7), (30, 6), (29, 5), (28, 4), (27, 3), (26, 2), (25, 1), (24, 0)] ∧
      s2.calls = s1.calls ++
        [(23, 7), (22, 6), (21, 5), (20, 4), (19, 3), (18, 2), (17, 1), (16, 0)] ∧
      s3.calls = s2.calls ++
        [(15, 7), (14, 6), (13, 5), (12, 4), (11, 3), (10, 2), (9, 1), (8, 0)] ∧
      s4.calls = s3.calls ++
        [(7, 7), (6, 6), (5, 5), (4, 4), (3, 3), (2, 2), (1, 1), (0, 0)] ∧
      s4.calls.map Prod.fst = (List.range 32).map (fun (t : Nat) => 31 - (t : Int)) ∧
      List.Pairwise (fun a b => a > b) (s4.calls.map Prod.fst) ∧
      (∀ p ∈ s4.calls, 0 ≤ p.1 ∧ p.1 ≤ 31 ∧ 0 ≤ p.2 ∧ p.2 ≤ 7 ∧ p.2 = p.1 % 8) ∧
      ∀ p ∈ s4.calls, int_shl_checked (bit_return word p.1) p.2
        = some (int_shl (bit_return word p.1) p.2) := by
  obtain ⟨s1, e1, -, -, c1⟩ := for_loop_calls word Acc.enc_b1 24 8 fuel
    ((main_start g1 g2 g3 g4).loop_init 31 7) rfl (by omega)
  obtain ⟨s2, e2, -, -, c2⟩ := for_loop_calls word Acc.enc_b2 16 8 fuel
    (s1.print_space.loop_init 23 7) rfl (by omega)
  obtain ⟨s3, e3, -, -, c3⟩ := for_loop_calls word Acc.enc_b3 8 8 fuel
    (s2.print_space.loop_init 15 7) rfl (by omega)
  obtain ⟨s4, e4, -, -, c4⟩ := for_loop_calls word Acc.enc_b4 0 8 fuel
    (s3.print_space.loop_init 7 7) rfl (by omega)
  have d1 : s1.calls
      = [(31, 7), (30, 6), (29, 5), (28, 4), (27, 3), (26, 2), (25, 1), (24, 0)] := by
    rw [c1]
    exact (show ([] : List (Int × Int)) ++ (List.range 8).map
      (fun (t : Nat) => ((31 : Int) - (t : Int), (7 : Int) - (t : Int))) = _ by decide)
  have d2 : s2.calls = s1.calls ++
      [(23, 7), (22, 6), (21, 5), (20, 4), (19, 3), (18, 2), (17, 1), (16, 0)] := by
    rw [c2, next_group_calls]
    exact congrArg _ (show (List.range 8).map
      (fun (t : Nat) => ((23 : Int) - (t : Int), (7 : Int) - (t : Int))) = _ by decide)
  have d3 : s3.calls = s2.calls ++
      [(15, 7), (14, 6), (13, 5), (12, 4), (11, 3), (10, 2), (9, 1), (8, 0)] := by
    rw [c3, next_group_calls]
    exact congrArg _ (show (List.range 8).map
      (fun (t : Nat) => ((15 : Int) - (t : Int), (7 : Int) - (t : Int))) = _ by decide)
  have d4 : s4.calls = s3.calls ++
      [(7, 7), (6, 6), (5, 5), (4, 4), (3, 3), (2, 2), (1, 1), (0, 0)] := by
    rw [c4, next_group_calls]
    exact congrArg _ (show (List.range 8).map
      (fun (t : Nat) => ((7 : Int) - (t : Int), (7 : Int) - (t : Int))) = _ by decide)
  have hm : main_loops word g1 g2 g3 g4 fuel = some s4 := by
    unfold main_loops
    simp only [Option.bind_eq_bind, e1, e2, e3, e4, Option.some_bind]
  have hr : ∀ p ∈ s4.calls, 0 ≤ p.1 ∧ p.1 ≤ 31 ∧ 0 ≤ p.2 ∧ p.2 ≤ 7 ∧ p.2 = p.1 % 8 := by
    rw [d4, d3, d2, d1]; decide
  refine ⟨s1, s2, s3, s4, e1, e2, e3, e4, hm, d1, d2, d3, d4, ?_, ?_, hr, ?_⟩
  · rw [d4, d3, d2, d1]; decide
  · rw [d4, d3, d2, d1]; decide
  · intro p hp
    obtain ⟨-, -, j0, j7, -⟩ := hr p hp
    exact int_shl_checked_bit _ _ (bit_return_zero_or_one word p.1) j0 j7

/-- The positions visited by `main` itself, with a 64-bit `unsigned long int`
and the accumulators started from the bytes 1, 2, 3, 4. -/
theorem main_loop_arguments_witness :
    9 ≤ 9 ∧ (main 64 1 2 3 4 9).map (fun s => s.calls.map Prod.fst)
      = some [31, 30, 29, 28, 27, 26, 25, 24, 23, 22, 21, 20, 19, 18, 17, 16,
              15, 14, 13, 12, 11, 10, 9, 8, 7, 6, 5, 4, 3, 2, 1, 0] := by
  obtain ⟨s1, s2, s3, s4, -, -, -, -, hm, -, -, -, -, hp, -, -, -⟩ :=
    main_loop_arguments (main_encode_in 64) 1 2 3 4 9 (by decide)
  refine ⟨by decide, ?_⟩
  unfold main
  rw [hm, Option.map_some', hp]
  decide

theorem loop_body_get_self (word : Int) (k : Acc) (s : MainState) :
    (loop_body word k s).get k = uchar_cast (pending_sum word k s) := by
  cases k <;> rfl

theorem loop_body_get_other (word : Int) (k k2 : Acc) (s : MainState) (h : k2 ≠ k) :
    (loop_body word k s).get k2 = s.get k2 := by
  cases k <;> cases k2 <;> first | rfl | exact absurd rfl h

theorem next_group_get (s : MainState) (i0 j0 : Int) (k : Acc) :
    (s.print_space.loop_init i0 j0).get k = s.get k := by
  cases k <;> rfl

theorem top_bits_step (b : Int) (m : Nat) (hm : m < 8) (h0 : 0 ≤ b) (h1 : b < 256) :
    b / 2 ^ (m + 1) * 2 ^ (m + 1) + b / 2 ^ m % 2 * 2 ^ m = b / 2 ^ m * 2 ^ m ∧
      0 ≤ b / 2 ^ m * 2 ^ m ∧ b / 2 ^ m * 2 ^ m ≤ b := by
  interval_cases m <;> norm_num <;> omega

/-- One group of eight iterations rebuilds the byte `b` whose bits the word
holds at the positions `lo .. lo + 7`: entered with `m` iterations to go and
the accumulator holding the bits of `b` above position `m`, the loop ends
with the accumulator equal to `b`, leaves the other accumulators alone and
forms `m` sums, each between 0 and 255. -/
theorem for_loop_acc (word : Int) (k : Acc) (lo b : Int) (h0 : 0 ≤ b) (h1 : b < 256)
    (hbit : ∀ m : Nat, m < 8 → bit_return word (lo + (m : Int)) = b / 2 ^ m % 2) (m : Nat) :
    ∀ (fuel : Nat) (s : MainState), m ≤ 8 → s.i = lo + m - 1 → s.j = m - 1 →
      s.get k = b / 2 ^ m * 2 ^ m → m < fuel →
      ∃ r, for_loop word k lo fuel s = some r ∧ r.get k = b ∧
        (∀ k2, k2 ≠ k → r.get k2 = s.get k2) ∧
        (for_loop_sums word k lo fuel s).length = m ∧
        ∀ x ∈ for_loop_sums word k lo fuel s, 0 ≤ x ∧ x ≤ 255 := by
  induction m with
  | zero =>
    intro fuel s _ hi _ hg hf
    obtain ⟨f, rfl⟩ : ∃ f, fuel = f + 1 := ⟨fuel - 1, by omega⟩
    have hc : ¬ (s.i ≥ lo) := by omega
    refine ⟨s, ?_, by simpa using hg, fun _ _ => rfl, ?_, ?_⟩
    · unfold for_loop; rw [if_neg hc]
    · unfold for_loop_sums; rw [if_neg hc]; rfl
    · unfold for_loop_sums; rw [if_neg hc]; intro x hx; cases hx
  | succ m ih =>
    intro fuel s hm hi hj hg hf
    obtain ⟨f, rfl⟩ : ∃ f, fuel = f + 1 := ⟨fuel - 1, by omega⟩
    have hi2 : s.i = lo + (m : Int) := by push_cast at hi; omega
    have hj2 : s.j = (m : Int) := by push_cast at hj; omega
    have hc : s.i ≥ lo := by omega
    obtain ⟨a1, a2, a3⟩ := top_bits_step b m (by omega) h0 h1
    have hx : b / 2 ^ m % 2 = 0 ∨ b / 2 ^ m % 2 = 1 := Int.emod_two_eq _
    have hp : pending_sum word k s = b / 2 ^ m * 2 ^ m := by
      unfold pending_sum
      rw [hg, hi2, hj2, hbit m (by omega), int_shl_bit _ m hx (by omega)]
      exact a1
    have hu : uchar_cast (pending_sum word k s) = b / 2 ^ m * 2 ^ m := by
      rw [hp]; unfold uchar_cast; omega
    obtain ⟨r, hr, rg, ro, rl, rs⟩ := ih f (loop_body word k s) (by omega)
      (by rw [loop_body_i]; omega) (by rw [loop_body_j]; omega)
      (by rw [loop_body_get_self, hu]) (by omega)
    refine ⟨r, ?_, rg, ?_, ?_, ?_⟩
    · unfold for_loop; rw [if_pos hc]; exact hr
    · intro k2 hk; rw [ro k2 hk, loop_body_get_other word k k2 s hk]
    · unfold for_loop_sums; rw [if_pos hc, List.length_cons, rl]
    · unfold for_loop_sums; rw [if_pos hc]
      intro x hx
      rcases List.mem_cons.mp hx with rfl | hx
      · rw [hp]; omega
      · exact rs x hx

theorem bit_return_packed (n p : Nat) (hn : n < 2 ^ 32) (hp : p < 32) :
    bit_return (bits_to_int n) (p : Int) = ((n / 2 ^ p % 2 : Nat) : Int) := by
  rw [bit_return_eq_testBit _ _ (by omega) (by omega), int_to_bits_bits_to_int,
    Nat.mod_eq_of_lt hn, Int.toNat_ofNat, Nat.testBit_to_div_mod]
  rcases Nat.mod_two_eq_zero_or_one (n / 2 ^ p) with h | h <;> simp [h]

/-- The bits of the packed word at the positions `8 * g .. 8 * g + 7` are the
bits of the byte stored there. -/
theorem bit_return_group (b1 b2 b3 b4 : Nat) (h1 : b1 < 256) (h2 : b2 < 256) (h3 : b3 < 256)
    (h4 : b4 < 256) (m : Nat) (hm : m < 8) :
    bit_return (bits_to_int (b1 * 2 ^ 24 + b2 * 2 ^ 16 + b3 * 2 ^ 8 + b4)) (24 + (m : Int))
        = (b1 : Int) / 2 ^ m % 2 ∧
      bit_return (bits_to_int (b1 * 2 ^ 24 + b2 * 2 ^ 16 + b3 * 2 ^ 8 + b4)) (16 + (m : Int))
        = (b2 : Int) / 2 ^ m % 2 ∧
      bit_return (bits_to_int (b1 * 2 ^ 24 + b2 * 2 ^ 16 + b3 * 2 ^ 8 + b4)) (8 + (m : Int))
        = (b3 : Int) / 2 ^ m % 2 ∧
      bit_return (bits_to_int (b1 * 2 ^ 24 + b2 * 2 ^ 16 + b3 * 2 ^ 8 + b4)) (0 + (m : Int))
        = (b4 : Int) / 2 ^ m % 2 := by
  have hn : b1 * 2 ^ 24 + b2 * 2 ^ 16 + b3 * 2 ^ 8 + b4 < 2 ^ 32 := by omega
  obtain ⟨n, hd⟩ : ∃ n, n = b1 * 2 ^ 24 + b2 * 2 ^ 16 + b3 * 2 ^ 8 + b4 := ⟨_, rfl⟩
  rw [← hd] at hn ⊢
  refine ⟨?_, ?_, ?_, ?_⟩
  · have e := bit_return_packed n (24 + m) hn (by omega)
    rw [Nat.cast_add, Nat.cast_ofNat] at e
    rw [e]; clear e; subst hd
    interval_cases m <;> norm_num <;> omega
  · have e := bit_return_packed n (16 + m) hn (by omega)
    rw [Nat.cast_add, Nat.cast_ofNat] at e
    rw [e]; clear e; subst hd
    interval_cases m <;> norm_num <;> omega
  · have e := bit_return_packed n (8 + m) hn (by omega)
    rw [Nat.cast_add, Nat.cast_ofNat] at e
    rw [e]; clear e; subst hd
    interval_cases m <;> norm_num <;> omega
  · have e := bit_return_packed n m hn (by omega)
    rw [zero_add, e]; clear e; subst hd
    interval_cases m <;> norm_num <;> omega

/-- C11: for every four bytes and every width `w ≥ 32`, the four loops of
`main`, run on the low 32 bits of `combine(b1, b2, b3, b4)` with the four
accumulators started from zero and a fuel of at least 9 steps per loop, end
with `enc_b1 = b1`, `enc_b2 = b2`, `enc_b3 = b3` and `enc_b4 = b4`.  The 32
sums formed by the statements `enc_bk += ...` all lie between 0 and 255, so
no conversion back to `unsigned char` wraps. -/
theorem main_loops_round_trip (w b1 b2 b3 b4 fuel : Nat) (hw : 32 ≤ w)
    (h1 : b1 < 256) (h2 : b2 < 256) (h3 : b3 < 256) (h4 : b4 < 256) (hf : 9 ≤ fuel) :
    (main_loops (bits_to_int (combine w b1 b2 b3 b4 % 2 ^ 32)) 0 0 0 0 fuel).map
        MainState.accs = some ((b1 : Int), (b2 : Int), (b3 : Int), (b4 : Int)) ∧
      ∃ sums, main_loops_sums (bits_to_int (combine w b1 b2 b3 b4 % 2 ^ 32)) 0 0 0 0 fuel
          = some sums ∧ sums.length = 32 ∧ ∀ x ∈ sums, 0 ≤ x ∧ x ≤ 255 := by
  have hn : b1 * 2 ^ 24 + b2 * 2 ^ 16 + b3 * 2 ^ 8 + b4 < 2 ^ 32 := by omega
  rw [combine_eq_sum hw h1 h2 h3 h4, Nat.mod_eq_of_lt hn]
  have hb := bit_return_group b1 b2 b3 b4 h1 h2 h3 h4
  have z : ∀ b : Int, 0 ≤ b → b < 256 → (0 : Int) = b / 2 ^ 8 * 2 ^ 8 := by
    intro b _ _; norm_num; omega
  obtain ⟨s1, e1, g1, o1, l1, m1⟩ := for_loop_acc _ Acc.enc_b1 24 b1 (by omega) (by omega)
    (fun m hm => (hb m hm).1) 8 fuel ((main_start 0 0 0 0).loop_init 31 7) (by omega) rfl rfl
    (z b1 (by omega) (by omega)) (by omega)
  obtain ⟨s2, e2, g2, o2, l2, m2⟩ := for_loop_acc _ Acc.enc_b2 16 b2 (by omega) (by omega)
    (fun m hm => (hb m hm).2.1) 8 fuel (s1.print_space.loop_init 23 7) (by omega) rfl rfl
    (by rw [next_group_get, o1 _ (by decide)]; exact z b2 (by omega) (by omega)) (by omega)
  obtain ⟨s3, e3, g3, o3, l3, m3⟩ := for_loop_acc _ Acc.enc_b3 8 b3 (by omega) (by omega)
    (fun m hm => (hb m hm).2.2.1) 8 fuel (s2.print_space.loop_init 15 7) (by omega) rfl rfl
    (by rw [next_group_get, o2 _ (by decide), next_group_get, o1 _ (by decide)]
        exact z b3 (by omega) (by omega)) (by omega)
  obtain ⟨s4, e4, g4, o4, l4, m4⟩ := for_loop_acc _ Acc.enc_b4 0 b4 (by omega) (by omega)
    (fun m hm => (hb m hm).2.2.2) 8 fuel (s3.print_space.loop_init 7 7) (by omega) rfl rfl
    (by rw [next_group_get, o3 _ (by decide), next_group_get, o2 _ (by decide),
          next_group_get, o1 _ (by decide)]
        exact z b4 (by omega) (by omega)) (by omega)
  have a1 : s4.enc_b1 = b1 := by
    have := o4 Acc.enc_b1 (by decide)
    rw [next_group_get, o3 _ (by decide), next_group_get, o2 _ (by decide), next_group_get,
      g1] at this
    exact this
  have a2 : s4.enc_b2 = b2 := by
    have := o4 Acc.enc_b2 (by decide)
    rw [next_group_get, o3 _ (by decide), next_group_get, g2] at this
    exact this
  have a3 : s4.enc_b3 = b3 := by
    have := o4 Acc.enc_b3 (by decide)
    rw [next_group_get, g3] at this
    exact this
  have a4 : s4.enc_b4 = b4 := g4
  constructor
  · unfold main_loops
    simp only [Option.bind_eq_bind, e1, e2, e3, e4, Option.some_bind, Option.map_some',
      MainState.accs, a1, a2, a3, a4]
  · have hs : main_loops_sums (bits_to_int (b1 * 2 ^ 24 + b2 * 2 ^ 16 + b3 * 2 ^ 8 + b4))
        0 0 0 0 fuel = some
        (for_loop_sums (bits_to_int (b1 * 2 ^ 24 + b2 * 2 ^ 16 + b3 * 2 ^ 8 + b4)) Acc.enc_b1
            24 fuel ((main_start 0 0 0 0).loop_init 31 7)
          ++ for_loop_sums (bits_to_int (b1 * 2 ^ 24 + b2 * 2 ^ 16 + b3 * 2 ^ 8 + b4))
            Acc.enc_b2 16 fuel (s1.print_space.loop_init 23 7)
          ++ for_loop_sums (bits_to_int (b1 * 2 ^ 24 + b2 * 2 ^ 16 + b3 * 2 ^ 8 + b4))
            Acc.enc_b3 8 fuel (s2.print_space.loop_init 15 7)
          ++ for_loop_sums (bits_to_int (b1 * 2 ^ 24 + b2 * 2 ^ 16 + b3 * 2 ^ 8 + b4))
            Acc.enc_b4 0 fuel (s3.print_space.loop_init 7 7)) := by
      unfold main_loops_sums
      simp only [Option.bind_eq_bind, e1, e2, e3, e4, Option.some_bind]
      rfl
    refine ⟨_, hs, ?_, ?_⟩
    · simp only [List.length_append, l1, l2, l3, l4]
    · intro x hx
      simp only [List.mem_append] at hx
      rcases hx with ((hx | hx) | hx) | hx
      · exact m1 x hx
      · exact m2 x hx
      · exact m3 x hx
      · exact m4 x hx

/-- The round trip at the bytes of the driver, with a 64-bit
`unsigned long int`. -/
theorem main_loops_round_trip_witness :
    32 ≤ 64 ∧ 9 ≤ 9 ∧
      (main_loops (bits_to_int (combine 64 191 224 0 0 % 2 ^ 32)) 0 0 0 0 9).map
        MainState.accs = some (191, 224, 0, 0) :=
  ⟨by decide, by decide,
    (main_loops_round_trip 64 191 224 0 0 9 (by decide) (by decide) (by decide) (by decide)
      (by decide) (by decide)).1⟩

end Testing
